import Mathlib

/-!
Verification of the doc-fragment normalizer, attribute aggregator, link
resolver and primitive-type registry of `src/librustdoc/clean/types.rs`.

Strings are modelled as `List Char`; machine maps and compiler queries
(the `TyCtxt` stability tables, the render-location cache, the
`MAX_DEF_IDX` thread local, `beautify_doc_string`) are modelled as
explicit function parameters.  A Rust `panic!` or failed `assert!` is
modelled by an `Option` result being `none`.
-/

set_option autoImplicit false

namespace RustdocClean

/-- A definition identifier: a pair of the compilation unit (crate) number
and the definition index within that unit (`DefId { krate, index }`). -/
def DefId := Nat × Nat

instance : DecidableEq DefId := instDecidableEqProd

/-- The characters for which the Rust standard library `char::is_whitespace`
returns true (the Unicode White_Space property). -/
def rust_is_whitespace (c : Char) : Bool :=
  c ∈ ([' ', '\t', '\n', Char.ofNat 0x0B, Char.ofNat 0x0C, '\r',
        Char.ofNat 0x85, Char.ofNat 0xA0, Char.ofNat 0x1680,
        Char.ofNat 0x2000, Char.ofNat 0x2001, Char.ofNat 0x2002,
        Char.ofNat 0x2003, Char.ofNat 0x2004, Char.ofNat 0x2005,
        Char.ofNat 0x2006, Char.ofNat 0x2007, Char.ofNat 0x2008,
        Char.ofNat 0x2009, Char.ofNat 0x200A, Char.ofNat 0x2028,
        Char.ofNat 0x2029, Char.ofNat 0x202F, Char.ofNat 0x205F,
        Char.ofNat 0x3000] : List Char)

/-- Split a string at every newline character.  The result is always
nonempty, and rejoining the pieces with newlines restores the string. -/
def split_nl : List Char → List (List Char)
  | [] => [[]]
  | c :: cs =>
    if c = '\n' then [] :: split_nl cs
    else
      match split_nl cs with
      | [] => [[c]]
      | l :: ls => (c :: l) :: ls

/-- Join pieces with newline characters (inverse of `split_nl`). -/
def join_lines : List (List Char) → List Char
  | [] => []
  | [l] => l
  | l :: ls => l ++ '\n' :: join_lines ls

/-- Strip one trailing carriage return, as the Rust `str::lines` iterator
does on every piece produced by `split_terminator`. -/
def strip_cr (l : List Char) : List Char :=
  if l.getLast? = some '\r' then l.dropLast else l

/-- Model of the Rust `str::lines` iterator: split at newlines, drop the
empty piece produced by a final line terminator, strip one trailing
carriage return from every piece. -/
def rust_lines (s : List Char) : List (List Char) :=
  let ps := split_nl s
  (if ps.getLast? = some ([] : List Char) then ps.dropLast else ps).map strip_cr

/-- The kind tag of a doc fragment (`DocFragmentKind`): sugared `///` or
`//!` comment, raw `#[doc = ""]` attribute, or an included file together
with its filename. -/
inductive DocFragmentKind where
  | SugaredDoc : DocFragmentKind
  | RawDoc : DocFragmentKind
  | Include (filename : List Char) : DocFragmentKind
deriving DecidableEq

/-- `matches!(k, DocFragmentKind::Include { .. })`. -/
def DocFragmentKind.isInclude : DocFragmentKind → Bool
  | .Include _ => true
  | _ => false

/-- One contiguous slice of documentation text (`DocFragment`).  The source
span is modelled as a number. -/
structure DocFragment where
  line : Nat
  span : Nat
  parent_module : Option DefId
  doc : List Char
  kind : DocFragmentKind
  need_backline : Bool
  indent : Nat
deriving DecidableEq

/-- `line.chars().any(|c| !c.is_whitespace())`. -/
def line_has_text (line : List Char) : Bool :=
  line.any (fun c => !rust_is_whitespace c)

/-- The per-line transformation of `add_doc_fragment`: a line containing a
non-whitespace character has the fragment indent stripped, after the
assertion `line.len() >= frag.indent` (`none` models the assertion
failure); a whitespace-only line is kept verbatim. -/
def rewrap_line (indent : Nat) (line : List Char) : Option (List Char) :=
  if line_has_text line then
    if indent ≤ line.length then some (line.drop indent) else none
  else
    some line

/-- Apply `rewrap_line` to every line, aborting at the first assertion
failure as the Rust loop does. -/
def rewrap_lines (indent : Nat) : List (List Char) → Option (List (List Char))
  | [] => some []
  | l :: ls =>
    match rewrap_line indent l with
    | none => none
    | some l2 =>
      match rewrap_lines indent ls with
      | none => none
      | some ls2 => some (l2 :: ls2)

/-- `add_doc_fragment(out, frag)`: rewrap every line of the fragment,
join the rewrapped lines with single newlines, append one trailing newline
when `need_backline` is set, and push the result onto `out`.  `none`
models the `assert!` panic on a non-blank line shorter than the indent. -/
def add_doc_fragment (out : List Char) (frag : DocFragment) : Option (List Char) :=
  match rewrap_lines frag.indent (rust_lines frag.doc) with
  | none => none
  | some ls =>
    some (out ++ join_lines ls ++ (if frag.need_backline then ['\n'] else []))

/-- The total per-line stripping described by the specification: drop the
indent from a line with text, keep a blank line verbatim. -/
def stripped_line (indent : Nat) (line : List Char) : List Char :=
  if line_has_text line then line.drop indent else line

/-- The inner `while let` loop of `Attributes::doc_value`: keep flattening
fragments until the first one whose kind or parent module differs from the
FIRST fragment `ori`, or immediately when `ori` is an include. -/
def doc_value_loop (ori : DocFragment) : List DocFragment → List Char → Option (List Char)
  | [], out => some out
  | new_frag :: rest, out =>
    if ori.kind.isInclude = true ∨ new_frag.kind ≠ ori.kind ∨
        new_frag.parent_module ≠ ori.parent_module then
      some out
    else
      match add_doc_fragment out new_frag with
      | none => none
      | some out2 => doc_value_loop ori rest out2

/-- `Attributes::doc_value` on the `doc_strings` field.  The outer `Option`
models the `assert!` panic inside `add_doc_fragment`; the inner `Option` is
the return value of the Rust function (`None` when there is no fragment or
the flattened text is empty). -/
def doc_value (doc_strings : List DocFragment) : Option (Option (List Char)) :=
  match doc_strings with
  | [] => some none
  | ori :: rest =>
    match add_doc_fragment [] ori with
    | none => none
    | some out =>
      match doc_value_loop ori rest out with
      | none => none
      | some out2 => some (if out2 = [] then none else some out2)

/-- The separator test of the `FromIterator<&DocFragment> for String` fold:
the previous fragment exists, is an include, and has a kind different from
the current fragment. -/
def prev_include_differs (prev_kind : Option DocFragmentKind) (k : DocFragmentKind) : Bool :=
  match prev_kind with
  | some p => p.isInclude && decide (p ≠ k)
  | none => false

/-- The extra-padding newline pushed by the `FromIterator` fold when the
accumulator is nonempty and the previous fragment was an include of a
different kind. -/
def maybe_sep (prev_kind : Option DocFragmentKind) (acc : List Char)
    (k : DocFragmentKind) : List Char :=
  if acc ≠ [] ∧ prev_include_differs prev_kind k = true then acc ++ ['\n'] else acc

/-- The fold of `FromIterator<&DocFragment> for String`: push an extra
newline when the accumulator is nonempty and the previous fragment was an
include of a different kind, then flatten the fragment. -/
def frags_to_string_go (prev_kind : Option DocFragmentKind) (acc : List Char) :
    List DocFragment → Option (List Char)
  | [] => some acc
  | frag :: rest =>
    match add_doc_fragment (maybe_sep prev_kind acc frag.kind) frag with
    | none => none
    | some acc3 => frags_to_string_go (some frag.kind) acc3 rest

/-- `Attributes::collapsed_doc_value` on the `doc_strings` field: `None`
when there is no fragment, else the `FromIterator` fold over all
fragments. -/
def collapsed_doc_value (doc_strings : List DocFragment) : Option (Option (List Char)) :=
  if doc_strings = [] then some none
  else (frags_to_string_go none [] doc_strings).map some

/-- Stated from the specification sentence for comparison with
`doc_value`: a later fragment belongs to the doc block of the first fragment
when the first fragment is not an include and the later fragment agrees
with it on kind and origin module. -/
def same_doc_block (ori f : DocFragment) : Bool :=
  !ori.kind.isInclude && decide (f.kind = ori.kind) &&
    decide (f.parent_module = ori.parent_module)

/-- The value assigned to the `need_backline` flag of the previous fragment by
`update_need_backline` when a new fragment is appended. -/
def new_need_backline (prev frag : DocFragment) : Bool :=
  if prev.kind.isInclude = true ∨ prev.kind ≠ frag.kind ∨
      prev.parent_module ≠ frag.parent_module then
    decide (prev.kind = DocFragmentKind.SugaredDoc ∨ prev.kind = DocFragmentKind.RawDoc)
  else
    true

/-- `update_need_backline(doc_strings, frag)`: mutate the last fragment of
the list (if any), setting its `need_backline` flag from the new fragment
about to be appended. -/
def update_need_backline : List DocFragment → DocFragment → List DocFragment
  | [], _ => []
  | [prev], frag => [{ prev with need_backline := new_need_backline prev frag }]
  | p :: q :: rest, frag => p :: update_need_backline (q :: rest) frag

/-- Modelled from the spec: configuration predicates (the `Cfg` type of
`clean/cfg.rs` is not part of the excerpt).  A predicate is the tautology,
a named build-time flag with an optional value, or a conjunction. -/
inductive Cfg where
  | tru : Cfg
  | pred (name : String) (value : Option String) : Cfg
  | and (a b : Cfg) : Cfg
deriving DecidableEq

/-- Modelled from the spec: the running-conjunction operation `cfg &= new`
(start at the tautology, AND in every parsed predicate); folding the
tautology on either side leaves the other operand, so the running
conjunction reduces to the tautology exactly when no proper predicate was
folded in. -/
def cfgAnd : Cfg → Cfg → Cfg
  | a, .tru => a
  | .tru, b => b
  | a, b => .and a b

/-- The view of one `ast::Attribute` consumed by `Attributes::from_ast`
(the attribute type itself belongs to the host compiler): its span, the
doc text carried (`attr.doc_str()`), whether it is a sugared doc comment,
whether it was written in inner style, the parsed `#[doc(cfg(...))]`
payload if any (`Attributes::extract_cfg` followed by `Cfg::parse`, an
error carrying the diagnostic span), the `#[doc(include = ...)]` payload
if any (filename and contents), and the feature names of any
`#[target_feature(enable = "...")]` list items. -/
structure Attr where
  span : Nat
  doc_str : Option (List Char)
  is_doc_comment : Bool
  style_is_inner : Bool
  doc_cfg : Option (Except Nat Cfg)
  doc_include : Option (List Char × List Char)
  target_feature_enable : List String

/-- The mutable state threaded through the `clean_attr` closure of
`Attributes::from_ast`. -/
structure FromAstState where
  doc_strings : List DocFragment
  sp : Option Nat
  cfg : Cfg
  doc_line : Nat
  diags : List Nat

/-- The `clean_attr` closure of `Attributes::from_ast`, processing one
attribute with its optional re-export parent module.  An attribute with
doc text becomes a fragment; otherwise a `doc(cfg(...))` payload is ANDed
into the running predicate (a parse error is reported as a diagnostic and
skipped); otherwise a `doc(include = ...)` payload becomes an include
fragment; anything else leaves the state unchanged. -/
def clean_attr (beautify : List Char → List Char) (st : FromAstState)
    (attr : Attr) (parent_module : Option DefId) : FromAstState :=
  match attr.doc_str with
  | some value0 =>
    let value := beautify value0
    let kind := if attr.is_doc_comment then DocFragmentKind.SugaredDoc
      else DocFragmentKind.RawDoc
    let frag : DocFragment := ⟨st.doc_line, attr.span, parent_module, value, kind, false, 0⟩
    { st with
      doc_strings := update_need_backline st.doc_strings frag ++ [frag],
      doc_line := st.doc_line + (rust_lines value).length,
      sp := match st.sp with | none => some attr.span | some s => some s }
  | none =>
    match attr.doc_cfg with
    | some (.ok new_cfg) => { st with cfg := cfgAnd st.cfg new_cfg }
    | some (.error e) => { st with diags := st.diags ++ [e] }
    | none =>
      match attr.doc_include with
      | some (filename, contents) =>
        let frag : DocFragment := ⟨st.doc_line, attr.span, parent_module, contents,
          DocFragmentKind.Include filename, false, 0⟩
        { st with
          doc_strings := update_need_backline st.doc_strings frag ++ [frag],
          doc_line := st.doc_line + (rust_lines contents).length }
      | none => st

/-- An unresolved intra-doc link record (`ItemLink`). -/
structure ItemLink where
  link : List Char
  link_text : List Char
  did : Option DefId
  fragment : Option (List Char)
deriving DecidableEq

/-- The normalized `Attributes` record.  The untouched non-doc attribute
list is not modelled (no claim mentions it); the reference-counted `Arc`
around the merged predicate is dropped. -/
structure Attributes where
  doc_strings : List DocFragment
  cfg : Option Cfg
  span : Option Nat
  links : List ItemLink
  inner_docs : Bool

/-- The attribute stream processed by `Attributes::from_ast`: additional
(re-export) attributes tagged with their parent module come first, then
the own attributes of the item with no parent module. -/
def attr_stream (attrs : List Attr) (additional_attrs : Option (List Attr × DefId)) :
    List (Attr × Option DefId) :=
  (match additional_attrs with
    | some (adds, id) => adds.map (fun a => (a, some id))
    | none => []) ++ attrs.map (fun a => (a, none))

/-- The state after folding `clean_attr` over the whole attribute stream,
starting from the empty state whose running predicate is the tautology. -/
def from_ast_state (beautify : List Char → List Char) (attrs : List Attr)
    (additional_attrs : Option (List Attr × DefId)) : FromAstState :=
  (attr_stream attrs additional_attrs).foldl
    (fun st p => clean_attr beautify st p.1 p.2) ⟨[], none, Cfg.tru, 0, []⟩

/-- The running conjunction built by `Attributes::from_ast`: fold
`clean_attr` over the stream starting from the tautology, then AND in an
implicit `target_feature = "feat"` predicate for every
`target_feature(enable = "feat")` list item of the own
attributes of the item. -/
def merged_cfg (beautify : List Char → List Char) (attrs : List Attr)
    (additional_attrs : Option (List Attr × DefId)) : Cfg :=
  attrs.foldl (fun c2 x =>
    x.target_feature_enable.foldl
      (fun c3 feat => cfgAnd c3 (Cfg.pred "target_feature" (some feat))) c2)
    (from_ast_state beautify attrs additional_attrs).cfg

/-- `Attributes::from_ast`, returning the record together with the list of
diagnostic spans reported to the handler.  The merged predicate is stored
as `None` exactly when it is the tautology. -/
def from_ast (beautify : List Char → List Char) (attrs : List Attr)
    (additional_attrs : Option (List Attr × DefId)) : Attributes × List Nat :=
  (⟨(from_ast_state beautify attrs additional_attrs).doc_strings,
    if merged_cfg beautify attrs additional_attrs = Cfg.tru then none
      else some (merged_cfg beautify attrs additional_attrs),
    (from_ast_state beautify attrs additional_attrs).sp,
    [],
    match attrs.find? (fun a => a.doc_str.isSome) with
    | some a => a.style_is_inner
    | none => true⟩,
    (from_ast_state beautify attrs additional_attrs).diags)

/-- `Item::is_fake`: the thread-local `MAX_DEF_IDX` map is passed as a
function from crate number to the recorded index.  An item is fake when an
index is recorded for its crate and the recorded index is at most the
definition index of the item. -/
def is_fake (max_def_idx : Nat → Option Nat) (def_id : DefId) : Bool :=
  match max_def_idx def_id.1 with
  | some idx => decide (idx ≤ def_id.2)
  | none => false

/-- The compiler stability tables consulted by `Item`, modelled as opaque
query functions (the payloads are abstracted to numbers). -/
structure TyCtxt where
  lookup_stability : DefId → Option Nat
  lookup_const_stability : DefId → Option Nat
  lookup_deprecation : DefId → Option Nat

/-- A documented item; only the fields the verified queries consult are
modelled. -/
structure Item where
  name : Option String
  attrs : Attributes
  def_id : DefId

/-- `Item::stability`. -/
def Item.stability (max_def_idx : Nat → Option Nat) (tcx : TyCtxt) (self : Item) :
    Option Nat :=
  if is_fake max_def_idx self.def_id then none else tcx.lookup_stability self.def_id

/-- `Item::const_stability`. -/
def Item.const_stability (max_def_idx : Nat → Option Nat) (tcx : TyCtxt) (self : Item) :
    Option Nat :=
  if is_fake max_def_idx self.def_id then none else tcx.lookup_const_stability self.def_id

/-- `Item::deprecation`. -/
def Item.deprecation (max_def_idx : Nat → Option Nat) (tcx : TyCtxt) (self : Item) :
    Option Nat :=
  if is_fake max_def_idx self.def_id then none else tcx.lookup_deprecation self.def_id

/-- The render location recorded for an external crate
(`ExternalLocation`). -/
inductive ExternalLocation where
  | Local : ExternalLocation
  | Remote (s : List Char) : ExternalLocation
  | Unknown : ExternalLocation

/-- A rendered hyperlink (`RenderedLink`). -/
structure RenderedLink where
  original_text : List Char
  new_text : List Char
  href : List Char
deriving DecidableEq

/-- The base URL chosen by `Attributes::links` for a primitive page: the
recorded external location of the crate (`Local` uses the current render depth,
`Remote` the recorded base, `Unknown` or no record the hardcoded standard
library root selected by the nightly flag). -/
def primitive_base_url (extern_loc : Option ExternalLocation) (depth : Nat)
    (is_nightly : Bool) : List Char :=
  match extern_loc with
  | some .Local => (List.replicate depth ("../".toList)).flatten
  | some (.Remote s) => s
  | some .Unknown | none =>
    (if is_nightly then "https://doc.rust-lang.org/nightly"
      else "https://doc.rust-lang.org").toList

/-- The by-hand primitive URL of `Attributes::links`: split the fragment
at the first `#` into page name and in-page anchor and assemble
`{url}{/}std/primitive.{name}.html{anchor}`. -/
def render_primitive_link (url : List Char) (link link_text fragment : List Char) :
    RenderedLink :=
  let tail := fragment.findIdx (fun c => c = '#')
  ⟨link, link_text,
    url ++ (if url.getLast? ≠ some '/' then ['/'] else []) ++
      "std/primitive.".toList ++ fragment.take tail ++ ".html".toList ++
      fragment.drop tail⟩

/-- The `filter_map` loop of `Attributes::links`.  The `href` cache lookup
(`html::format::href`), the external location of the crate, the current render
depth and the nightly flag are parameters.  A record with a resolved
identifier renders when the cache locates it and is skipped otherwise; a
record without an identifier but with a fragment renders a primitive link;
a record with neither panics (`none`). -/
def links_go (href : DefId → Option (List Char)) (extern_loc : Option ExternalLocation)
    (depth : Nat) (is_nightly : Bool) : List ItemLink → Option (List RenderedLink)
  | [] => some []
  | l :: rest =>
    match l.did with
    | some did =>
      match href did with
      | some h =>
        (links_go href extern_loc depth is_nightly rest).map
          (fun rs => ⟨l.link, l.link_text,
            h ++ (match l.fragment with | some f => '#' :: f | none => [])⟩ :: rs)
      | none => links_go href extern_loc depth is_nightly rest
    | none =>
      match l.fragment with
      | some fragment =>
        (links_go href extern_loc depth is_nightly rest).map
          (fun rs => render_primitive_link (primitive_base_url extern_loc depth is_nightly)
            l.link l.link_text fragment :: rs)
      | none => none

/-- `Attributes::links` applied to the unresolved link list of the record. -/
def attributes_links (href : DefId → Option (List Char))
    (extern_loc : Option ExternalLocation) (depth : Nat) (is_nightly : Bool)
    (self : Attributes) : Option (List RenderedLink) :=
  links_go href extern_loc depth is_nightly self.links

/-- The per-record rendering described by the specification, for
comparison with the `links_go` loop. -/
def render_link_record (href : DefId → Option (List Char))
    (extern_loc : Option ExternalLocation) (depth : Nat) (is_nightly : Bool)
    (l : ItemLink) : Option RenderedLink :=
  match l.did with
  | some did =>
    (href did).map (fun h => ⟨l.link, l.link_text,
      h ++ (match l.fragment with | some f => '#' :: f | none => [])⟩)
  | none =>
    l.fragment.map (fun f =>
      render_primitive_link (primitive_base_url extern_loc depth is_nightly)
        l.link l.link_text f)

/-- The closed enumeration of source-level primitive types
(`PrimitiveType`). -/
inductive PrimitiveType where
  | Isize | I8 | I16 | I32 | I64 | I128
  | Usize | U8 | U16 | U32 | U64 | U128
  | F32 | F64
  | Char | Bool | Str
  | Slice | Array | Tuple | Unit
  | RawPointer | Reference | Fn | Never
deriving DecidableEq

/-- `PrimitiveType::as_sym` (symbols are modelled as strings). -/
def PrimitiveType.as_sym : PrimitiveType → String
  | .Isize => "isize"
  | .I8 => "i8"
  | .I16 => "i16"
  | .I32 => "i32"
  | .I64 => "i64"
  | .I128 => "i128"
  | .Usize => "usize"
  | .U8 => "u8"
  | .U16 => "u16"
  | .U32 => "u32"
  | .U64 => "u64"
  | .U128 => "u128"
  | .F32 => "f32"
  | .F64 => "f64"
  | .Str => "str"
  | .Bool => "bool"
  | .Char => "char"
  | .Array => "array"
  | .Slice => "slice"
  | .Tuple => "tuple"
  | .Unit => "unit"
  | .RawPointer => "pointer"
  | .Reference => "reference"
  | .Fn => "fn"
  | .Never => "never"

/-- `PrimitiveType::from_symbol`. -/
def PrimitiveType.from_symbol (s : String) : Option PrimitiveType :=
  match s with
  | "isize" => some .Isize
  | "i8" => some .I8
  | "i16" => some .I16
  | "i32" => some .I32
  | "i64" => some .I64
  | "i128" => some .I128
  | "usize" => some .Usize
  | "u8" => some .U8
  | "u16" => some .U16
  | "u32" => some .U32
  | "u64" => some .U64
  | "u128" => some .U128
  | "bool" => some .Bool
  | "char" => some .Char
  | "str" => some .Str
  | "f32" => some .F32
  | "f64" => some .F64
  | "array" => some .Array
  | "slice" => some .Slice
  | "tuple" => some .Tuple
  | "unit" => some .Unit
  | "pointer" => some .RawPointer
  | "reference" => some .Reference
  | "fn" => some .Fn
  | "never" => some .Never
  | _ => none

/-! ### Lemmas about the line machinery -/

theorem split_nl_ne_nil (s : List Char) : split_nl s ≠ [] := by
  cases s with
  | nil => simp [split_nl]
  | cons c cs =>
    by_cases hc : c = '\n'
    · simp [split_nl, hc]
    · simp only [split_nl, if_neg hc]
      cases h : split_nl cs <;> simp

theorem join_lines_cons (l : List Char) (ls : List (List Char)) (h : ls ≠ []) :
    join_lines (l :: ls) = l ++ '\n' :: join_lines ls := by
  cases ls with
  | nil => exact absurd rfl h
  | cons l2 ls2 => rfl

theorem join_split_nl (s : List Char) : join_lines (split_nl s) = s := by
  induction s with
  | nil => rfl
  | cons c cs ih =>
    by_cases hc : c = '\n'
    · subst hc
      simp only [split_nl, eq_self_iff_true, if_true]
      rw [join_lines_cons _ _ (split_nl_ne_nil cs)]
      simpa using ih
    · simp only [split_nl, if_neg hc]
      cases h : split_nl cs with
      | nil => exact absurd h (split_nl_ne_nil cs)
      | cons l ls =>
        rw [h] at ih
        cases ls with
        | nil => simp only [join_lines] at ih ⊢; rw [ih]
        | cons l2 ls2 =>
          rw [join_lines_cons _ _ (by simp)] at ih
          rw [join_lines_cons _ _ (by simp), List.cons_append, ih]

theorem add_doc_fragment_append (out : List Char) (frag : DocFragment) :
    add_doc_fragment out frag = (add_doc_fragment [] frag).map (out ++ ·) := by
  unfold add_doc_fragment
  cases rewrap_lines frag.indent (rust_lines frag.doc) with
  | none => rfl
  | some ls => simp

theorem rewrap_line_eq_none (indent : Nat) (l : List Char) :
    rewrap_line indent l = none ↔ line_has_text l = true ∧ l.length < indent := by
  rw [rewrap_line]
  by_cases h1 : line_has_text l = true
  · rw [if_pos h1]
    by_cases h2 : indent ≤ l.length
    · simp only [if_pos h2, h1]
      constructor
      · intro hcontr; exact absurd hcontr (by simp)
      · intro ⟨_, hlt⟩; omega
    · simp only [if_neg h2, h1, true_and]
      constructor
      · intro _; omega
      · intro _; trivial
  · rw [if_neg h1]
    simp [h1]

theorem rewrap_line_eq_some (indent : Nat) (l : List Char)
    (h : line_has_text l = true → indent ≤ l.length) :
    rewrap_line indent l = some (stripped_line indent l) := by
  rw [rewrap_line, stripped_line]
  by_cases h1 : line_has_text l = true
  · rw [if_pos h1, if_pos h1, if_pos (h h1)]
  · rw [if_neg h1, if_neg h1]

theorem rewrap_lines_eq_none (indent : Nat) (ls : List (List Char)) :
    rewrap_lines indent ls = none ↔
      ∃ l ∈ ls, line_has_text l = true ∧ l.length < indent := by
  induction ls with
  | nil => simp [rewrap_lines]
  | cons l ls ih =>
    rw [rewrap_lines]
    cases h : rewrap_line indent l with
    | none =>
      constructor
      · intro _
        exact ⟨l, List.mem_cons_self l ls, (rewrap_line_eq_none indent l).mp h⟩
      · intro _; trivial
    | some l2 =>
      cases h2 : rewrap_lines indent ls with
      | none =>
        constructor
        · intro _
          obtain ⟨x, hx, hp⟩ := ih.mp h2
          exact ⟨x, List.mem_cons_of_mem _ hx, hp⟩
        · intro _; trivial
      | some ls2 =>
        constructor
        · intro hcontr; exact absurd hcontr (by simp)
        · rintro ⟨x, hx, hp⟩
          rcases List.mem_cons.mp hx with hx | hx
          · subst hx
            rw [(rewrap_line_eq_none indent x).mpr hp] at h
            exact absurd h (by simp)
          · rw [ih.mpr ⟨x, hx, hp⟩] at h2
            exact absurd h2 (by simp)

theorem rewrap_lines_eq_map (indent : Nat) (ls : List (List Char))
    (h : ∀ l ∈ ls, line_has_text l = true → indent ≤ l.length) :
    rewrap_lines indent ls = some (ls.map (stripped_line indent)) := by
  induction ls with
  | nil => rfl
  | cons l ls ih =>
    rw [rewrap_lines, rewrap_line_eq_some indent l (h l (by simp)),
      ih (fun x hx => h x (List.mem_cons_of_mem _ hx))]
    rfl

theorem split_nl_no_cr (s : List Char) (hs : '\r' ∉ s) :
    ∀ l ∈ split_nl s, '\r' ∉ l := by
  induction s with
  | nil =>
    intro l hl
    simp [split_nl] at hl
    simp [hl]
  | cons c cs ih =>
    have hc : ('\r' : Char) ≠ c := fun h => hs (h ▸ List.mem_cons_self c cs)
    have hcs : '\r' ∉ cs := fun h => hs (List.mem_cons_of_mem c h)
    intro l hl
    by_cases hnl : c = '\n'
    · rw [split_nl, if_pos hnl] at hl
      rcases List.mem_cons.mp hl with h | h
      · simp [h]
      · exact ih hcs l h
    · rw [split_nl, if_neg hnl] at hl
      cases hsplit : split_nl cs with
      | nil => exact absurd hsplit (split_nl_ne_nil cs)
      | cons hd t =>
        rw [hsplit] at hl
        rcases List.mem_cons.mp hl with h | h
        · subst h
          intro hmem
          rcases List.mem_cons.mp hmem with h | h
          · exact hc h
          · exact ih hcs hd (hsplit ▸ List.mem_cons_self hd t) h
        · exact ih hcs l (hsplit ▸ List.mem_cons_of_mem hd h)

theorem split_nl_getLast_ne_nil (s : List Char) (hne : s ≠ [])
    (hlast : s.getLast? ≠ some '\n') :
    (split_nl s).getLast? ≠ some ([] : List Char) := by
  induction s with
  | nil => exact absurd rfl hne
  | cons c cs ih =>
    cases cs with
    | nil =>
      have hc : c ≠ '\n' := fun h => hlast (by simp [h])
      rw [split_nl, if_neg hc]
      simp [split_nl]
    | cons c2 cs2 =>
      have hlast2 : (c2 :: cs2).getLast? ≠ some '\n' := by
        rwa [List.getLast?_cons_cons] at hlast
      have ih2 := ih (by simp) hlast2
      by_cases hnl : c = '\n'
      · rw [split_nl, if_pos hnl]
        cases hsplit : split_nl (c2 :: cs2) with
        | nil => exact absurd hsplit (split_nl_ne_nil _)
        | cons hd t =>
          rw [hsplit] at ih2
          rwa [List.getLast?_cons_cons]
      · rw [split_nl, if_neg hnl]
        cases hsplit : split_nl (c2 :: cs2) with
        | nil => exact absurd hsplit (split_nl_ne_nil _)
        | cons hd t =>
          rw [hsplit] at ih2
          cases t with
          | nil => simp
          | cons t1 t2 =>
            rwa [List.getLast?_cons_cons]

theorem strip_cr_no_cr (l : List Char) (h : '\r' ∉ l) : strip_cr l = l := by
  rw [strip_cr]
  cases hl : l.getLast? with
  | none => rfl
  | some a =>
    by_cases ha : a = '\r'
    · subst ha
      obtain ⟨hne, hx⟩ := List.mem_getLast?_eq_getLast
        (show '\r' ∈ l.getLast? by rw [hl]; rfl)
      exact absurd (hx ▸ List.getLast_mem hne) h
    · rw [if_neg (by simp [ha])]

theorem rust_lines_of_plain (s : List Char) (hne : s ≠ []) (hcr : '\r' ∉ s)
    (hlast : s.getLast? ≠ some '\n') : rust_lines s = split_nl s := by
  rw [rust_lines]
  simp only [if_neg (split_nl_getLast_ne_nil s hne hlast)]
  exact List.map_congr_left (fun l hl => strip_cr_no_cr l (split_nl_no_cr s hcr l hl))
    |>.trans (List.map_id _)

theorem rewrap_lines_zero (ls : List (List Char)) : rewrap_lines 0 ls = some ls := by
  induction ls with
  | nil => rfl
  | cons l ls ih =>
    rw [rewrap_lines, rewrap_line]
    by_cases h : line_has_text l = true
    · rw [if_pos h, if_pos (Nat.zero_le _), List.drop_zero, ih]
    · rw [if_neg h, ih]

/-- Re-flattening: a nonempty string with no carriage return and no final
newline, wrapped as a single zero-indent fragment with no forced blank
line, flattens back to itself. -/
theorem add_doc_fragment_reflatten (s : List Char) (line sp : Nat)
    (pm : Option DefId) (kind : DocFragmentKind) (hne : s ≠ []) (hcr : '\r' ∉ s)
    (hlast : s.getLast? ≠ some '\n') :
    add_doc_fragment [] ⟨line, sp, pm, s, kind, false, 0⟩ = some s := by
  rw [add_doc_fragment]
  simp only [rust_lines_of_plain s hne hcr hlast, rewrap_lines_zero]
  simp [join_split_nl]

/-! ### Prefix lemmas relating `doc_value` and `collapsed_doc_value` -/

theorem maybe_sep_extends (pk : Option DocFragmentKind) (acc : List Char)
    (k : DocFragmentKind) : ∃ v, maybe_sep pk acc k = acc ++ v := by
  rw [maybe_sep]
  by_cases h : acc ≠ [] ∧ prev_include_differs pk k = true
  · exact ⟨['\n'], if_pos h⟩
  · exact ⟨[], by rw [if_neg h, List.append_nil]⟩

theorem frags_go_extends (l : List DocFragment) :
    ∀ (pk : Option DocFragmentKind) (acc t : List Char),
      frags_to_string_go pk acc l = some t → ∃ u, acc ++ u = t := by
  induction l with
  | nil =>
    intro pk acc t h
    rw [frags_to_string_go] at h
    exact ⟨[], by rw [List.append_nil]; exact Option.some.inj h⟩
  | cons frag rest ih =>
    intro pk acc t h
    cases hadd : add_doc_fragment (maybe_sep pk acc frag.kind) frag with
    | none => rw [frags_to_string_go, hadd] at h; cases h
    | some acc3 =>
      rw [frags_to_string_go, hadd] at h
      obtain ⟨u, hu⟩ := ih _ _ _ h
      have happ := add_doc_fragment_append (maybe_sep pk acc frag.kind) frag
      rw [hadd] at happ
      cases hr : add_doc_fragment [] frag with
      | none => rw [hr] at happ; cases happ
      | some r =>
        rw [hr] at happ
        obtain ⟨v, hv⟩ := maybe_sep_extends pk acc frag.kind
        refine ⟨v ++ r ++ u, ?_⟩
        have hacc3 : acc3 = maybe_sep pk acc frag.kind ++ r := Option.some.inj happ
        rw [← hu, hacc3, hv]
        simp [List.append_assoc]

theorem doc_value_loop_of_include (ori : DocFragment)
    (h : ori.kind.isInclude = true) (rest : List DocFragment) (acc : List Char) :
    doc_value_loop ori rest acc = some acc := by
  cases rest with
  | nil => rfl
  | cons f rest => rw [doc_value_loop, if_pos (Or.inl h)]

theorem isInclude_eq_false_of_not {k : DocFragmentKind}
    (h : ¬ k.isInclude = true) : k.isInclude = false := by
  cases hk : k.isInclude with
  | false => rfl
  | true => exact absurd hk h

theorem maybe_sep_of_not_include (acc : List Char) {k0 : DocFragmentKind}
    (h : ¬ k0.isInclude = true) (k : DocFragmentKind) :
    maybe_sep (some k0) acc k = acc := by
  rw [maybe_sep, prev_include_differs, isInclude_eq_false_of_not h]
  rw [if_neg (by simp)]

theorem doc_value_loop_prefix (ori : DocFragment) (hni : ¬ ori.kind.isInclude = true) :
    ∀ (rest : List DocFragment) (acc s t : List Char),
      doc_value_loop ori rest acc = some s →
      frags_to_string_go (some ori.kind) acc rest = some t →
      ∃ u, s ++ u = t := by
  intro rest
  induction rest with
  | nil =>
    intro acc s t h1 h2
    rw [doc_value_loop] at h1
    rw [frags_to_string_go] at h2
    exact ⟨[], by rw [List.append_nil, ← Option.some.inj h1, ← Option.some.inj h2]⟩
  | cons f rest ih =>
    intro acc s t h1 h2
    by_cases hb : ori.kind.isInclude = true ∨ f.kind ≠ ori.kind ∨
        f.parent_module ≠ ori.parent_module
    · rw [doc_value_loop, if_pos hb] at h1
      obtain ⟨u, hu⟩ := frags_go_extends _ _ _ _ h2
      exact ⟨u, by rw [← Option.some.inj h1]; exact hu⟩
    · push_neg at hb
      obtain ⟨-, hkind, hpm⟩ := hb
      rw [doc_value_loop,
        if_neg (by rw [not_or, not_or]; exact ⟨hni, not_not_intro hkind, not_not_intro hpm⟩)]
        at h1
      rw [frags_to_string_go, maybe_sep_of_not_include acc hni] at h2
      cases hadd : add_doc_fragment acc f with
      | none => rw [hadd] at h1; cases h1
      | some acc3 =>
        rw [hadd] at h1 h2
        rw [hkind] at h2
        exact ih acc3 s t h1 h2

theorem maybe_sep_nil (pk : Option DocFragmentKind) (k : DocFragmentKind) :
    maybe_sep pk [] k = [] := by
  simp [maybe_sep]

theorem same_doc_block_iff (ori f : DocFragment) :
    same_doc_block ori f = true ↔
      ¬(ori.kind.isInclude = true ∨ f.kind ≠ ori.kind ∨
        f.parent_module ≠ ori.parent_module) := by
  rw [same_doc_block]
  simp only [Bool.and_eq_true, Bool.not_eq_true', decide_eq_true_eq, not_or, not_not,
    Bool.not_eq_true]
  tauto

theorem doc_value_loop_takeWhile (ori : DocFragment) :
    ∀ (rest : List DocFragment) (acc : List Char),
      doc_value_loop ori rest acc =
        doc_value_loop ori (rest.takeWhile (same_doc_block ori)) acc := by
  intro rest
  induction rest with
  | nil => intro acc; rfl
  | cons f rest ih =>
    intro acc
    by_cases hb : same_doc_block ori f = true
    · rw [List.takeWhile_cons_of_pos hb]
      have hcond := (same_doc_block_iff ori f).mp hb
      simp only [doc_value_loop]
      rw [if_neg hcond, if_neg hcond]
      cases hadd : add_doc_fragment acc f with
      | none => rfl
      | some acc2 => exact ih acc2
    · rw [List.takeWhile_cons_of_neg hb]
      have hcond : ori.kind.isInclude = true ∨ f.kind ≠ ori.kind ∨
          f.parent_module ≠ ori.parent_module :=
        not_not.mp (mt (same_doc_block_iff ori f).mpr hb)
      simp only [doc_value_loop]
      rw [if_pos hcond]

/-! ### Claim theorems -/

/-- Claim C1: for every fragment list with at least one fragment,
`doc_value` concatenates fragments starting from the first one and stops
at the first later fragment whose kind or origin module differs from the
kind or origin module of the FIRST fragment — fragments past that point never
contribute — and when the first fragment is a file include it stops
immediately after that first fragment. -/
theorem claim_C1_doc_value_first_block :
    (∀ (ori : DocFragment) (rest : List DocFragment),
        doc_value (ori :: rest) =
          doc_value (ori :: rest.takeWhile (same_doc_block ori)))
    ∧ (∀ (ori : DocFragment) (rest : List DocFragment),
        ori.kind.isInclude = true → doc_value (ori :: rest) = doc_value [ori]) := by
  constructor
  · intro ori rest
    simp only [doc_value, doc_value_loop_takeWhile ori rest]
  · intro ori rest h
    simp only [doc_value, doc_value_loop_of_include ori h]

theorem claim_C1_witness :
    doc_value [⟨0, 0, none, "a".toList, DocFragmentKind.Include "f".toList, false, 0⟩,
        ⟨1, 1, none, "b".toList, DocFragmentKind.Include "f".toList, false, 0⟩] =
      doc_value [⟨0, 0, none, "a".toList, DocFragmentKind.Include "f".toList, false, 0⟩] :=
  claim_C1_doc_value_first_block.2 _ _ rfl

/-- Claim C2 (amended): the string produced by `doc_value` is always a left
prefix of the string produced by `collapsed_doc_value`; re-flattening the
flattened output as one zero-indent fragment with no forced blank line
returns the same string PROVIDED the output does not end with a newline
and contains no carriage return (without that proviso idempotence fails,
see the counterexample). -/
theorem claim_C2_prefix_and_idempotent :
    (∀ (ds : List DocFragment) (s t : List Char),
        doc_value ds = some (some s) → collapsed_doc_value ds = some (some t) →
        ∃ u, s ++ u = t)
    ∧ (∀ (s : List Char) (line sp : Nat) (pm : Option DefId) (kind : DocFragmentKind),
        s ≠ [] → '\r' ∉ s → s.getLast? ≠ some '\n' →
        doc_value [⟨line, sp, pm, s, kind, false, 0⟩] = some (some s) ∧
        collapsed_doc_value [⟨line, sp, pm, s, kind, false, 0⟩] = some (some s)) := by
  constructor
  · intro ds s t h1 h2
    cases ds with
    | nil =>
      rw [doc_value] at h1
      exact absurd (Option.some.inj h1) (by simp)
    | cons ori rest =>
      rw [doc_value] at h1
      cases ha : add_doc_fragment [] ori with
      | none => rw [ha] at h1; cases h1
      | some o1 =>
        simp only [ha] at h1
        cases hloop : doc_value_loop ori rest o1 with
        | none => rw [hloop] at h1; cases h1
        | some out2 =>
          simp only [hloop] at h1
          by_cases hout : out2 = []
          · rw [if_pos hout] at h1
            exact absurd (Option.some.inj h1) (by simp)
          · rw [if_neg hout] at h1
            have hs : out2 = s := Option.some.inj (Option.some.inj h1)
            rw [collapsed_doc_value, if_neg (by simp)] at h2
            cases hgo : frags_to_string_go none [] (ori :: rest) with
            | none => rw [hgo] at h2; cases h2
            | some t2 =>
              rw [hgo] at h2
              have ht : t2 = t := by simpa using h2
              simp only [frags_to_string_go, maybe_sep_nil, ha] at hgo
              subst hs
              subst ht
              by_cases hinc : ori.kind.isInclude = true
              · have heq := doc_value_loop_of_include ori hinc rest o1
                rw [heq] at hloop
                have ho : o1 = out2 := Option.some.inj hloop
                subst ho
                exact frags_go_extends rest _ _ _ hgo
              · exact doc_value_loop_prefix ori hinc rest o1 out2 t2 hloop hgo
  · intro s line sp pm kind hne hcr hlast
    have ha := add_doc_fragment_reflatten s line sp pm kind hne hcr hlast
    constructor
    · simp only [doc_value, ha, doc_value_loop]
      rw [if_neg hne]
    · rw [collapsed_doc_value, if_neg (by simp)]
      simp only [frags_to_string_go, maybe_sep_nil, ha]
      rfl

theorem claim_C2_witness :
    (∃ u, ['a'] ++ u = ['a'])
    ∧ doc_value [⟨0, 0, none, ['a'], DocFragmentKind.SugaredDoc, false, 0⟩] =
        some (some ['a']) :=
  ⟨claim_C2_prefix_and_idempotent.1
      [⟨0, 0, none, ['a'], DocFragmentKind.SugaredDoc, false, 0⟩] ['a'] ['a']
      (by decide) (by decide),
    (claim_C2_prefix_and_idempotent.2 ['a'] 0 0 none DocFragmentKind.SugaredDoc
      (by decide) (by decide) (by decide)).1⟩

/-- Claim C2 fails as stated: a single sugared fragment whose
`need_backline` flag is set flattens to a string ending in a newline, and
re-flattening that output as one zero-indent fragment with no forced
blank line drops the trailing newline, so flattening is not idempotent. -/
theorem claim_C2_counterexample :
    doc_value [⟨0, 0, none, ['a'], DocFragmentKind.SugaredDoc, true, 0⟩] =
      some (some ['a', '\n'])
    ∧ doc_value [⟨0, 0, none, ['a', '\n'], DocFragmentKind.SugaredDoc, false, 0⟩] =
      some (some ['a'])
    ∧ (['a', '\n'] : List Char) ≠ ['a'] :=
  ⟨by decide, by decide, by decide⟩

/-- Claim C7: `add_doc_fragment` strips exactly the recorded indent from
the front of every line containing a non-whitespace character, copies
whitespace-only lines verbatim, joins lines with single newlines and
appends one trailing newline exactly when `need_backline` is set; in
particular a fragment with indent 4 and text `"    hello\n\n    world"`
rewraps to `"hello\n\nworld"`. -/
theorem claim_C7_add_doc_fragment_rewraps :
    (∀ (out : List Char) (frag : DocFragment),
        (∀ l ∈ rust_lines frag.doc, line_has_text l = true → frag.indent ≤ l.length) →
        add_doc_fragment out frag =
          some (out ++ join_lines ((rust_lines frag.doc).map (stripped_line frag.indent)) ++
            (if frag.need_backline then ['\n'] else [])))
    ∧ add_doc_fragment []
        ⟨0, 0, none, "    hello\n\n    world".toList, DocFragmentKind.RawDoc, false, 4⟩ =
        some "hello\n\nworld".toList := by
  constructor
  · intro out frag h
    rw [add_doc_fragment, rewrap_lines_eq_map frag.indent (rust_lines frag.doc) h]
  · decide

theorem claim_C7_witness :
    add_doc_fragment [] ⟨0, 0, none, "  ab".toList, DocFragmentKind.SugaredDoc, true, 2⟩ =
      some ([] ++ join_lines ((rust_lines "  ab".toList).map (stripped_line 2)) ++
        (if true then ['\n'] else [])) :=
  claim_C7_add_doc_fragment_rewraps.1 [] _ (by decide)

/-- Claim C8: `add_doc_fragment` aborts (assertion failure, modelled as
`none`) exactly when some line of the fragment contains a non-whitespace
character and is shorter than the declared indent; in particular under
the precondition that every such line is at least `indent` characters
long the fault branch is unreachable. -/
theorem claim_C8_short_line_aborts :
    ∀ (out : List Char) (frag : DocFragment),
      add_doc_fragment out frag = none ↔
        ∃ l ∈ rust_lines frag.doc, line_has_text l = true ∧ l.length < frag.indent := by
  intro out frag
  constructor
  · intro hnone
    cases h : rewrap_lines frag.indent (rust_lines frag.doc) with
    | none => exact (rewrap_lines_eq_none _ _).mp h
    | some ls => rw [add_doc_fragment, h] at hnone; cases hnone
  · intro hex
    rw [add_doc_fragment, (rewrap_lines_eq_none _ _).mpr hex]

/-- Claim C10: `doc_value` returns `None` not only when there is no doc
fragment at all but whenever the flattened first doc block is empty — for
example a single raw `#[doc = ""]` fragment with no forced blank line —
so a `Some` result is always a nonempty string. -/
theorem claim_C10_doc_value_none_on_empty :
    (∀ (ds : List DocFragment) (s : List Char),
        doc_value ds = some (some s) → s ≠ [])
    ∧ doc_value [⟨0, 0, none, [], DocFragmentKind.RawDoc, false, 0⟩] = some none := by
  constructor
  · intro ds s h
    cases ds with
    | nil =>
      rw [doc_value] at h
      exact absurd (Option.some.inj h) (by simp)
    | cons ori rest =>
      rw [doc_value] at h
      cases ha : add_doc_fragment [] ori with
      | none => rw [ha] at h; cases h
      | some o1 =>
        simp only [ha] at h
        cases hloop : doc_value_loop ori rest o1 with
        | none => rw [hloop] at h; cases h
        | some out2 =>
          simp only [hloop] at h
          by_cases hout : out2 = []
          · rw [if_pos hout] at h
            exact absurd (Option.some.inj h) (by simp)
          · rw [if_neg hout] at h
            rw [← Option.some.inj (Option.some.inj h)]
            exact hout
  · decide

theorem claim_C10_witness : (['a'] : List Char) ≠ [] :=
  claim_C10_doc_value_none_on_empty.1
    [⟨0, 0, none, ['a'], DocFragmentKind.RawDoc, false, 0⟩] ['a'] (by decide)

/-- Claim C3 (amended): after each append, `update_need_backline` rewrites
only the flag of the last previous fragment; when the previous fragment is
a file include, or its kind or origin module differs from those of the new
fragment, the flag is set exactly when the previous fragment is a
sugared or raw doc comment (so never for an include); when kind and origin
module both match the flag is always set.  At a boundary between two
origin modules a separator is therefore inserted PROVIDED the previous
fragment is a sugared or raw doc comment (without that proviso the final
sentence of the claim fails, see the counterexample). -/
theorem claim_C3_update_need_backline :
    (∀ (ds : List DocFragment) (prev frag : DocFragment),
        update_need_backline (ds ++ [prev]) frag =
          ds ++ [{ prev with need_backline := new_need_backline prev frag }])
    ∧ (∀ prev frag : DocFragment,
        (prev.kind.isInclude = true ∨ prev.kind ≠ frag.kind ∨
            prev.parent_module ≠ frag.parent_module) →
          (new_need_backline prev frag = true ↔
            (prev.kind = DocFragmentKind.SugaredDoc ∨ prev.kind = DocFragmentKind.RawDoc)))
    ∧ (∀ prev frag : DocFragment,
        ¬(prev.kind.isInclude = true ∨ prev.kind ≠ frag.kind ∨
            prev.parent_module ≠ frag.parent_module) →
          new_need_backline prev frag = true)
    ∧ (∀ prev frag : DocFragment,
        (prev.kind = DocFragmentKind.SugaredDoc ∨ prev.kind = DocFragmentKind.RawDoc) →
        prev.parent_module ≠ frag.parent_module →
        new_need_backline prev frag = true) := by
  refine ⟨?_, ?_, ?_, ?_⟩
  · intro ds
    induction ds with
    | nil => intro prev frag; rfl
    | cons d ds ih =>
      intro prev frag
      rw [List.cons_append]
      cases hds : ds ++ [prev] with
      | nil => exact absurd hds (by simp)
      | cons q rest2 =>
        rw [update_need_backline, ← hds, ih]
        rfl
  · intro prev frag h
    rw [new_need_backline, if_pos h]
    exact decide_eq_true_iff
  · intro prev frag h
    rw [new_need_backline, if_neg h]
  · intro prev frag hsr hpm
    rw [new_need_backline, if_pos (Or.inr (Or.inr hpm))]
    exact decide_eq_true_iff.mpr hsr

theorem claim_C3_witness :
    new_need_backline
        ⟨0, 0, none, "a".toList, DocFragmentKind.SugaredDoc, false, 0⟩
        ⟨1, 1, some (0, 0), "b".toList, DocFragmentKind.SugaredDoc, false, 0⟩ = true
    ∧ new_need_backline
        ⟨0, 0, none, "a".toList, DocFragmentKind.SugaredDoc, false, 0⟩
        ⟨1, 1, none, "b".toList, DocFragmentKind.SugaredDoc, false, 0⟩ = true :=
  ⟨claim_C3_update_need_backline.2.2.2 _ _ (Or.inl rfl) (by decide),
    claim_C3_update_need_backline.2.2.1 _ _ (by decide)⟩

/-- Claim C3 fails in its final sentence: two fragments from two different
origin modules where the previous fragment is a file include get NO
blank-line separator (the flag is set to false at that boundary). -/
theorem claim_C3_counterexample :
    (update_need_backline
        [⟨0, 0, some (0, 0), "a".toList, DocFragmentKind.Include "f".toList, true, 0⟩]
        ⟨1, 1, some (1, 0), "b".toList, DocFragmentKind.SugaredDoc, false, 0⟩).head?.map
      DocFragment.need_backline = some false
    ∧ (some ((0 : Nat), (0 : Nat)) : Option DefId) ≠ some ((1 : Nat), (0 : Nat)) := by
  exact ⟨by decide, by decide⟩

/-- Claim C5: an item is fake exactly when an index is recorded for its
compilation unit and the definition index of the item reaches it (the recorded
index is the first one past the real range of the unit), and for every fake
item the stability, const-stability and deprecation lookups return `none`
unconditionally, while for non-fake items they delegate to the compiler
tables keyed by the identifier of the item. -/
theorem claim_C5_fake_items :
    ∀ (m : Nat → Option Nat) (tcx : TyCtxt) (it : Item),
      (is_fake m it.def_id = true ↔
        ∃ idx, m it.def_id.1 = some idx ∧ idx ≤ it.def_id.2)
      ∧ (is_fake m it.def_id = true →
          it.stability m tcx = none ∧ it.const_stability m tcx = none ∧
            it.deprecation m tcx = none)
      ∧ (is_fake m it.def_id = false →
          it.stability m tcx = tcx.lookup_stability it.def_id ∧
          it.const_stability m tcx = tcx.lookup_const_stability it.def_id ∧
          it.deprecation m tcx = tcx.lookup_deprecation it.def_id) := by
  intro m tcx it
  refine ⟨?_, ?_, ?_⟩
  · rw [is_fake]
    cases h : m it.def_id.1 with
    | none => simp
    | some idx => simp
  · intro h
    exact ⟨by rw [Item.stability, if_pos h],
      by rw [Item.const_stability, if_pos h],
      by rw [Item.deprecation, if_pos h]⟩
  · intro h
    have h2 : ¬ is_fake m it.def_id = true := by simp [h]
    exact ⟨by rw [Item.stability, if_neg h2],
      by rw [Item.const_stability, if_neg h2],
      by rw [Item.deprecation, if_neg h2]⟩

theorem claim_C5_witness :
    Item.stability (fun _ => some 5)
        ⟨fun _ => some 1, fun _ => some 2, fun _ => some 3⟩
        ⟨none, ⟨[], none, none, [], true⟩, ((0, 7) : DefId)⟩ = none
    ∧ Item.stability (fun _ => some 5)
        ⟨fun _ => some 1, fun _ => some 2, fun _ => some 3⟩
        ⟨none, ⟨[], none, none, [], true⟩, ((0, 3) : DefId)⟩ =
      TyCtxt.lookup_stability
        ⟨fun _ => some 1, fun _ => some 2, fun _ => some 3⟩ ((0, 3) : DefId) :=
  ⟨((claim_C5_fake_items (fun _ => some 5)
      ⟨fun _ => some 1, fun _ => some 2, fun _ => some 3⟩
      ⟨none, ⟨[], none, none, [], true⟩, ((0, 7) : DefId)⟩).2.1 (by decide)).1,
    ((claim_C5_fake_items (fun _ => some 5)
      ⟨fun _ => some 1, fun _ => some 2, fun _ => some 3⟩
      ⟨none, ⟨[], none, none, [], true⟩, ((0, 3) : DefId)⟩).2.2 (by decide)).1⟩

/-- Claim C9: converting every primitive tag to its symbolic name and back
yields the original tag. -/
theorem claim_C9_primitive_roundtrip :
    ∀ p : PrimitiveType, PrimitiveType.from_symbol p.as_sym = some p := by
  intro p
  cases p <;> rfl

theorem links_go_total (href : DefId → Option (List Char))
    (el : Option ExternalLocation) (depth : Nat) (n : Bool) :
    ∀ ls : List ItemLink,
      (∀ l ∈ ls, l.did.isSome = true ∨ l.fragment.isSome = true) →
      links_go href el depth n ls =
        some (ls.filterMap (render_link_record href el depth n)) := by
  intro ls
  induction ls with
  | nil => intro _; rfl
  | cons l rest ih =>
    intro h
    have hrest := ih (fun x hx => h x (List.mem_cons_of_mem _ hx))
    have hl := h l (List.mem_cons_self _ _)
    rw [links_go, List.filterMap_cons]
    cases hdid : l.did with
    | some did =>
      simp only [render_link_record, hdid]
      cases hh : href did with
      | some hstr =>
        rw [hrest]
        simp
      | none => exact hrest
    | none =>
      cases hfrag : l.fragment with
      | some f =>
        simp only [render_link_record, hdid, hfrag]
        rw [hrest]
        simp
      | none =>
        rw [hdid, hfrag] at hl
        simp at hl

theorem links_go_panics (href : DefId → Option (List Char))
    (el : Option ExternalLocation) (depth : Nat) (n : Bool) :
    ∀ ls : List ItemLink,
      (∃ l ∈ ls, l.did = none ∧ l.fragment = none) →
      links_go href el depth n ls = none := by
  intro ls
  induction ls with
  | nil => rintro ⟨l, hl, -⟩; simp at hl
  | cons l rest ih =>
    rintro ⟨x, hx, hdid, hfrag⟩
    rcases List.mem_cons.mp hx with hx | hx
    · subst hx
      rw [links_go, hdid, hfrag]
    · have hrest := ih ⟨x, hx, hdid, hfrag⟩
      rw [links_go, hrest]
      cases hd : l.did with
      | some did =>
        simp only [hd]
        cases hh : href did <;> simp
      | none =>
        simp only [hd]
        cases hf : l.fragment <;> simp

/-- Claim C6: `Attributes::links` maps the unresolved link records in
input order; a record with a resolved identifier renders exactly when the
cache locates it and is silently omitted otherwise; a record without an
identifier but with a fragment renders a primitive-page link; a record
with neither aborts the whole operation (panic, no output). -/
theorem claim_C6_links :
    ∀ (href : DefId → Option (List Char)) (el : Option ExternalLocation)
      (depth : Nat) (n : Bool) (a : Attributes),
      ((∀ l ∈ a.links, l.did.isSome = true ∨ l.fragment.isSome = true) →
        attributes_links href el depth n a =
          some (a.links.filterMap (render_link_record href el depth n)))
      ∧ ((∃ l ∈ a.links, l.did = none ∧ l.fragment = none) →
        attributes_links href el depth n a = none) := by
  intro href el depth n a
  exact ⟨fun h => links_go_total href el depth n a.links h,
    fun h => links_go_panics href el depth n a.links h⟩

theorem claim_C6_witness :
    attributes_links (fun _ => some "u/v".toList) none 0 false
        ⟨[], none, none,
          [⟨"t".toList, "t".toList, some ((0, 0) : DefId), none⟩,
           ⟨"p".toList, "p".toList, none, some "u8".toList⟩], true⟩ =
      some
        ([⟨"t".toList, "t".toList, some ((0, 0) : DefId), none⟩,
          ⟨"p".toList, "p".toList, none, some "u8".toList⟩].filterMap
          (render_link_record (fun _ => some "u/v".toList) none 0 false))
    ∧ attributes_links (fun _ => some "u/v".toList) none 0 false
        ⟨[], none, none, [⟨"t".toList, "t".toList, none, none⟩], true⟩ = none :=
  ⟨(claim_C6_links (fun _ => some "u/v".toList) none 0 false
      ⟨[], none, none,
        [⟨"t".toList, "t".toList, some ((0, 0) : DefId), none⟩,
         ⟨"p".toList, "p".toList, none, some "u8".toList⟩], true⟩).1 (by decide),
    (claim_C6_links (fun _ => some "u/v".toList) none 0 false
      ⟨[], none, none, [⟨"t".toList, "t".toList, none, none⟩], true⟩).2
      ⟨⟨"t".toList, "t".toList, none, none⟩, by decide, rfl, rfl⟩⟩

theorem clean_attr_congr (b : List Char → List Char) (a : Attr) (pm : Option DefId)
    (st1 st2 : FromAstState)
    (h1 : st1.doc_strings = st2.doc_strings) (h2 : st1.sp = st2.sp)
    (h3 : st1.cfg = st2.cfg) (h4 : st1.doc_line = st2.doc_line) :
    (clean_attr b st1 a pm).doc_strings = (clean_attr b st2 a pm).doc_strings
    ∧ (clean_attr b st1 a pm).sp = (clean_attr b st2 a pm).sp
    ∧ (clean_attr b st1 a pm).cfg = (clean_attr b st2 a pm).cfg
    ∧ (clean_attr b st1 a pm).doc_line = (clean_attr b st2 a pm).doc_line := by
  simp only [clean_attr]
  cases hds : a.doc_str with
  | some v => simp [h1, h2, h3, h4]
  | none =>
    cases hcfg : a.doc_cfg with
    | some r =>
      cases r with
      | ok c => simp [h1, h2, h3, h4]
      | error e => simp [h1, h2, h3, h4]
    | none =>
      cases hinc : a.doc_include with
      | some p =>
        cases p with
        | mk f c => simp [h1, h2, h3, h4]
      | none => simp [h1, h2, h3, h4]

theorem fold_clean_attr_congr (b : List Char → List Char) :
    ∀ (stream : List (Attr × Option DefId)) (st1 st2 : FromAstState),
      st1.doc_strings = st2.doc_strings → st1.sp = st2.sp → st1.cfg = st2.cfg →
      st1.doc_line = st2.doc_line →
      (stream.foldl (fun st p => clean_attr b st p.1 p.2) st1).doc_strings =
        (stream.foldl (fun st p => clean_attr b st p.1 p.2) st2).doc_strings
      ∧ (stream.foldl (fun st p => clean_attr b st p.1 p.2) st1).sp =
        (stream.foldl (fun st p => clean_attr b st p.1 p.2) st2).sp
      ∧ (stream.foldl (fun st p => clean_attr b st p.1 p.2) st1).cfg =
        (stream.foldl (fun st p => clean_attr b st p.1 p.2) st2).cfg
      ∧ (stream.foldl (fun st p => clean_attr b st p.1 p.2) st1).doc_line =
        (stream.foldl (fun st p => clean_attr b st p.1 p.2) st2).doc_line := by
  intro stream
  induction stream with
  | nil => intro st1 st2 h1 h2 h3 h4; exact ⟨h1, h2, h3, h4⟩
  | cons p rest ih =>
    intro st1 st2 h1 h2 h3 h4
    obtain ⟨g1, g2, g3, g4⟩ := clean_attr_congr b p.1 p.2 st1 st2 h1 h2 h3 h4
    simp only [List.foldl_cons]
    exact ih _ _ g1 g2 g3 g4

theorem clean_attr_diags (b : List Char → List Char) (st : FromAstState) (a : Attr)
    (pm : Option DefId) : ∃ δ, (clean_attr b st a pm).diags = st.diags ++ δ := by
  simp only [clean_attr]
  cases hds : a.doc_str with
  | some v => exact ⟨[], by simp⟩
  | none =>
    cases hcfg : a.doc_cfg with
    | some r =>
      cases r with
      | ok c => exact ⟨[], by simp⟩
      | error e => exact ⟨[e], by simp⟩
    | none =>
      cases hinc : a.doc_include with
      | some p => exact ⟨[], by cases p; simp⟩
      | none => exact ⟨[], by simp⟩

theorem fold_clean_attr_diags (b : List Char → List Char) :
    ∀ (stream : List (Attr × Option DefId)) (st : FromAstState),
      ∃ δ, (stream.foldl (fun st p => clean_attr b st p.1 p.2) st).diags =
        st.diags ++ δ := by
  intro stream
  induction stream with
  | nil => intro st; exact ⟨[], by simp⟩
  | cons p rest ih =>
    intro st
    obtain ⟨δ1, h1⟩ := clean_attr_diags b st p.1 p.2
    obtain ⟨δ2, h2⟩ := ih (clean_attr b st p.1 p.2)
    refine ⟨δ1 ++ δ2, ?_⟩
    simp only [List.foldl_cons]
    rw [h2, h1, List.append_assoc]

theorem clean_attr_error (b : List Char → List Char) (st : FromAstState) (a : Attr)
    (pm : Option DefId) (e : Nat) (h1 : a.doc_str = none)
    (h2 : a.doc_cfg = some (.error e)) :
    clean_attr b st a pm = { st with diags := st.diags ++ [e] } := by
  simp only [clean_attr, h1, h2]

theorem clean_attr_cfg_of_none (b : List Char → List Char) (st : FromAstState)
    (a : Attr) (pm : Option DefId) (h : a.doc_cfg = none) :
    (clean_attr b st a pm).cfg = st.cfg := by
  simp only [clean_attr]
  cases hds : a.doc_str with
  | some v => simp
  | none =>
    rw [h]
    cases hinc : a.doc_include with
    | some p => cases p; simp
    | none => simp

theorem fold_clean_attr_cfg (b : List Char → List Char) :
    ∀ (stream : List (Attr × Option DefId)) (st : FromAstState),
      (∀ p ∈ stream, p.1.doc_cfg = none) →
      (stream.foldl (fun st p => clean_attr b st p.1 p.2) st).cfg = st.cfg := by
  intro stream
  induction stream with
  | nil => intro st _; rfl
  | cons p rest ih =>
    intro st h
    simp only [List.foldl_cons]
    rw [ih (clean_attr b st p.1 p.2) (fun x hx => h x (List.mem_cons_of_mem _ hx))]
    exact clean_attr_cfg_of_none b st p.1 p.2 (h p (List.mem_cons_self _ _))

theorem tf_fold_empty :
    ∀ (attrs : List Attr) (c : Cfg),
      (∀ a ∈ attrs, a.target_feature_enable = []) →
      attrs.foldl (fun c2 x => x.target_feature_enable.foldl
        (fun c3 feat => cfgAnd c3 (Cfg.pred "target_feature" (some feat))) c2) c = c := by
  intro attrs
  induction attrs with
  | nil => intro c _; rfl
  | cons a rest ih =>
    intro c h
    simp only [List.foldl_cons]
    rw [h a (List.mem_cons_self _ _)]
    simp only [List.foldl_nil]
    exact ih c (fun x hx => h x (List.mem_cons_of_mem _ hx))

theorem tf_fold_append_skip (pre post : List Attr) (a : Attr) (c : Cfg)
    (h : a.target_feature_enable = []) :
    (pre ++ a :: post).foldl (fun c2 x => x.target_feature_enable.foldl
      (fun c3 feat => cfgAnd c3 (Cfg.pred "target_feature" (some feat))) c2) c =
    (pre ++ post).foldl (fun c2 x => x.target_feature_enable.foldl
      (fun c3 feat => cfgAnd c3 (Cfg.pred "target_feature" (some feat))) c2) c := by
  rw [List.foldl_append, List.foldl_append]
  simp only [List.foldl_cons]
  rw [h]
  simp only [List.foldl_nil]

theorem foldl_stream_error_skip (b : List Char → List Char)
    (S T : List (Attr × Option DefId)) (a : Attr) (pm : Option DefId) (e : Nat)
    (init : FromAstState) (h1 : a.doc_str = none) (h2 : a.doc_cfg = some (.error e)) :
    ((S ++ (a, pm) :: T).foldl (fun st p => clean_attr b st p.1 p.2) init).doc_strings =
      ((S ++ T).foldl (fun st p => clean_attr b st p.1 p.2) init).doc_strings
    ∧ ((S ++ (a, pm) :: T).foldl (fun st p => clean_attr b st p.1 p.2) init).sp =
      ((S ++ T).foldl (fun st p => clean_attr b st p.1 p.2) init).sp
    ∧ ((S ++ (a, pm) :: T).foldl (fun st p => clean_attr b st p.1 p.2) init).cfg =
      ((S ++ T).foldl (fun st p => clean_attr b st p.1 p.2) init).cfg
    ∧ ((S ++ (a, pm) :: T).foldl (fun st p => clean_attr b st p.1 p.2) init).doc_line =
      ((S ++ T).foldl (fun st p => clean_attr b st p.1 p.2) init).doc_line
    ∧ e ∈ ((S ++ (a, pm) :: T).foldl (fun st p => clean_attr b st p.1 p.2) init).diags := by
  simp only [List.foldl_append, List.foldl_cons]
  rw [clean_attr_error b (S.foldl (fun st p => clean_attr b st p.1 p.2) init) a pm e h1 h2]
  obtain ⟨g1, g2, g3, g4⟩ := fold_clean_attr_congr b T
    { S.foldl (fun st p => clean_attr b st p.1 p.2) init with
      diags := (S.foldl (fun st p => clean_attr b st p.1 p.2) init).diags ++ [e] }
    (S.foldl (fun st p => clean_attr b st p.1 p.2) init) rfl rfl rfl rfl
  obtain ⟨δ, hδ⟩ := fold_clean_attr_diags b T
    { S.foldl (fun st p => clean_attr b st p.1 p.2) init with
      diags := (S.foldl (fun st p => clean_attr b st p.1 p.2) init).diags ++ [e] }
  exact ⟨g1, g2, g3, g4, by rw [hδ]; simp⟩

/-- Claim C4: `from_ast` folds configuration predicates as a running
conjunction starting at the tautology — every parsed `doc(cfg(...))`
predicate and an implicit `target_feature = "feat"` predicate per enabled
target feature are ANDed in — the `cfg` field is `None` exactly when the
conjunction reduces to the tautology (in particular an item with neither
kind of attribute yields `None`), and a `doc(cfg)` parse failure is
reported as a diagnostic while its predicate is skipped, not fatal. -/
theorem claim_C4_cfg_folding :
    (∀ (b : List Char → List Char) (attrs : List Attr)
        (adds : Option (List Attr × DefId)),
        (from_ast b attrs adds).1.cfg = none ↔ merged_cfg b attrs adds = Cfg.tru)
    ∧ ((from_ast id
        [⟨0, none, false, false, some (.ok (Cfg.pred "unix" none)), none, []⟩,
         ⟨1, none, false, false, none, none, ["avx2"]⟩] none).1.cfg =
      some (Cfg.and (Cfg.pred "unix" none) (Cfg.pred "target_feature" (some "avx2"))))
    ∧ (∀ (b : List Char → List Char) (attrs : List Attr),
        (∀ a ∈ attrs, a.doc_cfg = none ∧ a.target_feature_enable = []) →
        (from_ast b attrs none).1.cfg = none)
    ∧ (∀ (b : List Char → List Char) (pre post : List Attr) (a : Attr) (e : Nat)
        (adds : Option (List Attr × DefId)),
        a.doc_str = none → a.doc_cfg = some (.error e) → a.target_feature_enable = [] →
        (from_ast b (pre ++ a :: post) adds).1.cfg = (from_ast b (pre ++ post) adds).1.cfg
        ∧ (from_ast b (pre ++ a :: post) adds).1.doc_strings =
            (from_ast b (pre ++ post) adds).1.doc_strings
        ∧ e ∈ (from_ast b (pre ++ a :: post) adds).2) := by
  refine ⟨?_, by decide, ?_, ?_⟩
  · intro b attrs adds
    by_cases h : merged_cfg b attrs adds = Cfg.tru
    · simp [from_ast, h]
    · simp [from_ast, h]
  · intro b attrs h
    have hstate : (from_ast_state b attrs none).cfg = Cfg.tru := by
      rw [from_ast_state]
      refine fold_clean_attr_cfg b (attr_stream attrs none) ⟨[], none, Cfg.tru, 0, []⟩ ?_
      intro p hp
      simp only [attr_stream, List.nil_append, List.mem_map] at hp
      obtain ⟨x, hx, rfl⟩ := hp
      exact (h x hx).1
    have hmerged : merged_cfg b attrs none = Cfg.tru := by
      rw [merged_cfg, hstate]
      exact tf_fold_empty attrs Cfg.tru (fun x hx => (h x hx).2)
    simp [from_ast, hmerged]
  · intro b pre post a e adds h1 h2 h3
    have hstream1 : attr_stream (pre ++ a :: post) adds =
        attr_stream pre adds ++
          (a, (none : Option DefId)) :: post.map (fun x => (x, (none : Option DefId))) := by
      simp [attr_stream, List.append_assoc]
    have hstream2 : attr_stream (pre ++ post) adds =
        attr_stream pre adds ++ post.map (fun x => (x, (none : Option DefId))) := by
      simp [attr_stream, List.append_assoc]
    have key := foldl_stream_error_skip b (attr_stream pre adds)
      (post.map (fun x => (x, (none : Option DefId)))) a none e
      ⟨[], none, Cfg.tru, 0, []⟩ h1 h2
    rw [← hstream1, ← hstream2] at key
    obtain ⟨k1, k2, k3, k4, k5⟩ := key
    have hmerged : merged_cfg b (pre ++ a :: post) adds =
        merged_cfg b (pre ++ post) adds := by
      rw [merged_cfg, merged_cfg]
      rw [show (from_ast_state b (pre ++ a :: post) adds).cfg =
        (from_ast_state b (pre ++ post) adds).cfg from k3]
      exact tf_fold_append_skip pre post a _ h3
    refine ⟨?_, ?_, ?_⟩
    · simp only [from_ast]
      rw [hmerged]
    · simp only [from_ast]
      exact k1
    · simp only [from_ast]
      exact k5

theorem claim_C4_witness :
    (from_ast id [] none).1.cfg = none
    ∧ (from_ast id [⟨0, none, false, false, some (.error 7), none, []⟩] none).1.cfg =
        (from_ast id [] none).1.cfg
    ∧ 7 ∈ (from_ast id [⟨0, none, false, false, some (.error 7), none, []⟩] none).2 :=
  ⟨claim_C4_cfg_folding.2.2.1 id [] (by simp),
    (claim_C4_cfg_folding.2.2.2 id [] []
      ⟨0, none, false, false, some (.error 7), none, []⟩ 7 none rfl rfl rfl).1,
    (claim_C4_cfg_folding.2.2.2 id [] []
      ⟨0, none, false, false, some (.error 7), none, []⟩ 7 none rfl rfl rfl).2.2⟩

end RustdocClean
